import Mathlib

/-!
Verification of the coral-growth branch-generation and field-rasterization
pipeline (second document of src/simulation/brain.ts and the mesh
postprocessor of src/unnamed/part_004), shallowly embedded over the reals.
JavaScript floating-point numbers are modelled as real numbers; the
mulberry32 PRNG works on 32-bit patterns, modelled as naturals mod 2^32.
Stochastic code is parameterized by an abstract draw stream r : Nat -> Real
together with an explicit draw counter, threaded in exactly the order the
source calls rand().
-/

open scoped Classical

noncomputable section

-- ── Vector math (three.js Vector3 operations used by the generators) ──

structure Vec3 where
  x : ℝ
  y : ℝ
  z : ℝ

def vadd (a b : Vec3) : Vec3 := ⟨a.x + b.x, a.y + b.y, a.z + b.z⟩

def vsub (a b : Vec3) : Vec3 := ⟨a.x - b.x, a.y - b.y, a.z - b.z⟩

def vneg (a : Vec3) : Vec3 := ⟨-a.x, -a.y, -a.z⟩

def vsmul (a : Vec3) (c : ℝ) : Vec3 := ⟨a.x * c, a.y * c, a.z * c⟩

def vdot (a b : Vec3) : ℝ := a.x * b.x + a.y * b.y + a.z * b.z

def vcross (a b : Vec3) : Vec3 :=
  ⟨a.y * b.z - a.z * b.y, a.z * b.x - a.x * b.z, a.x * b.y - a.y * b.x⟩

def vlen (a : Vec3) : ℝ := Real.sqrt (vdot a a)

-- three.js normalize divides by the length, or by 1 when the length is 0.
def vnormalize (a : Vec3) : Vec3 := if vlen a = 0 then a else vsmul a (1 / vlen a)

def vdist (a b : Vec3) : ℝ := vlen (vsub a b)

-- ── Seeded PRNG (mulberry32), on 32-bit patterns ──

def toUint32 (seed : ℤ) : ℕ := (seed % 4294967296).toNat

def mulberryNext (s : ℕ) : ℕ := (s + 0x6D2B79F5) % 4294967296

def mulberryOut (s : ℕ) : ℕ :=
  let t1 := ((s ^^^ (s >>> 15)) * (s ||| 1)) % 4294967296
  let t2 := (((t1 + ((t1 ^^^ (t1 >>> 7)) * (t1 ||| 61)) % 4294967296) % 4294967296) ^^^ t1)
  (t2 ^^^ (t2 >>> 14)) % 4294967296

/-- The k-th output (0-based) of the mulberry32 generator seeded with `seed`. -/
def mulberryStream (seed : ℤ) (k : ℕ) : ℝ :=
  (mulberryOut (mulberryNext^[k + 1] (toUint32 seed)) : ℝ) / 4294967296

-- ── Branch data ──

structure Branch where
  start : Vec3
  «end» : Vec3
  startRadius : ℝ
  endRadius : ℝ
  depth : ℕ

structure Node where
  pos : Vec3
  radius : ℝ
  depth : ℕ

def nodeDefault : Node := ⟨⟨0, 0, 0⟩, 0, 0⟩

-- ── Geometric helpers shared by the generators ──

/-- Rodrigues rotation of v around axis by angle (brain.ts rotateAround). -/
def rotateAround (v axis : Vec3) (angle : ℝ) : Vec3 :=
  let k := vnormalize axis
  let c := Real.cos angle
  let s := Real.sin angle
  let cross := vcross k v
  let d := vdot k v
  vadd (vadd (vsmul v c) (vsmul cross s)) (vsmul k (d * (1 - c)))

/-- Perpendicular direction picker (brain.ts randomPerpendicular). The source
takes the rand closure as an argument but never invokes it, so it consumes
no draws and is deterministic in dir. -/
def randomPerpendicular (dir : Vec3) : Vec3 :=
  let arbitrary : Vec3 := if |dir.y| < 0.9 then ⟨0, 1, 0⟩ else ⟨1, 0, 0⟩
  vnormalize (vcross dir arbitrary)

-- ── Kamiya angle and Murray radius (flow-conserving generator) ──

/-- Kamiya cosine (brain.ts kamiyaAngle, the unclamped cosTheta expression). -/
def kamiyaCos (f n : ℝ) : ℝ :=
  let e := 4 / n
  let e2 := 2 / n
  (1 + f ^ e - (1 - f) ^ e) / (2 * f ^ e2)

/-- Kamiya branching angle: arccos of the cosine clamped to [-1, 1]. -/
def kamiyaAngle (f n : ℝ) : ℝ := Real.arccos (max (-1) (min 1 (kamiyaCos f n)))

/-- Murray's law radius: child radius = parent radius times f^(1/n). -/
def murrayRadius (radius f n : ℝ) : ℝ := radius * f ^ (1 / n)

-- ── Child flow fractions (flow-conserving generator, branching events) ──

/-- Binary split fractions: minor fraction r drawn in [0.5 - asymmetry, 0.5]. -/
def childFractions2 (asymmetry u : ℝ) : List ℝ :=
  let r := (0.5 - asymmetry) + u * asymmetry
  [r, 1 - r]

/-- Ternary split fractions: three weights, the first biased larger,
normalized by their sum. -/
def childFractions3 (u1 u2 u3 : ℝ) : List ℝ :=
  let a := 1 + u1
  let b := u2
  let c := u3
  let sum := a + b + c
  [a / sum, b / sum, c / sum]

/-- Descending insertion of x into an already descending list. -/
def insertDesc (x : ℝ) : List ℝ → List ℝ
  | [] => [x]
  | y :: ys => if y ≤ x then x :: y :: ys else y :: insertDesc x ys

/-- Descending sort, modelling fractions.sort((a, b) => b - a). -/
def sortDesc : List ℝ → List ℝ
  | [] => []
  | x :: xs => insertDesc x (sortDesc xs)

/-- Flow termination threshold 2^(-density) (Kitaoka Rule 9). -/
def flowThreshold (density : ℝ) : ℝ := (2 : ℝ) ^ (-density)

-- ── Anastomosis pass (shared scan structure of both generators) ──

/-- Depth-decaying fusion probability of the classic generator:
anastomosis * depthFactor^2 with depthFactor = 1 - avgDepth / generations. -/
def classicChance (anastomosis avgDepth generations : ℝ) : ℝ :=
  anastomosis * (1 - avgDepth / generations) * (1 - avgDepth / generations)

/-- Depth-decaying fusion probability of the flow-conserving generator:
same shape, but normalized by the observed maximum depth. -/
def kitaokaChance (anastomosis avgDepth maxObservedDepth : ℝ) : ℝ :=
  anastomosis * (1 - avgDepth / maxObservedDepth) * (1 - avgDepth / maxObservedDepth)

/-- Observed maximum branch depth across the whole generated tree
(branches.reduce max with initial value 1). -/
def maxObservedDepth (branches : List Branch) : ℕ :=
  branches.foldl (fun m b => max m b.depth) 1

/-- Inner scan of the anastomosis pass: for a fixed unfused node i, walk the
candidate indices j in order, skipping fused nodes and pairs outside the
distance band, drawing one rand per in-band pair, and committing the first
pair whose draw beats the fusion chance. Returns the committed pair (if any)
and the advanced draw counter. -/
def anastInner (nodes : List Node) (chanceOf : Node → Node → ℝ) (fusionDist : ℝ)
    (r : ℕ → ℝ) (i : ℕ) (fused : List ℕ) : List ℕ → ℕ → Option (ℕ × ℕ) × ℕ
  | [], k => (none, k)
  | j :: js, k =>
    if j ∈ fused then anastInner nodes chanceOf fusionDist r i fused js k
    else if vdist (nodes.getD i nodeDefault).pos (nodes.getD j nodeDefault).pos < 0.5 ∨
        fusionDist < vdist (nodes.getD i nodeDefault).pos (nodes.getD j nodeDefault).pos then
      anastInner nodes chanceOf fusionDist r i fused js k
    else if r k < chanceOf (nodes.getD i nodeDefault) (nodes.getD j nodeDefault) then
      (some (i, j), k + 1)
    else anastInner nodes chanceOf fusionDist r i fused js (k + 1)

/-- Outer scan of the anastomosis pass over the node indices, in index order,
threading the fused set, the committed pairs and the draw counter. -/
def anastOuter (nodes : List Node) (chanceOf : Node → Node → ℝ) (fusionDist : ℝ)
    (r : ℕ → ℝ) (n : ℕ) : List ℕ → List ℕ → List (ℕ × ℕ) → ℕ → List (ℕ × ℕ) × ℕ
  | [], _fused, pairs, k => (pairs, k)
  | i :: is, fused, pairs, k =>
    if i ∈ fused then anastOuter nodes chanceOf fusionDist r n is fused pairs k
    else
      match anastInner nodes chanceOf fusionDist r i fused
          (List.range' (i + 1) (n - (i + 1))) k with
      | (none, k') => anastOuter nodes chanceOf fusionDist r n is fused pairs k'
      | (some pr, k') =>
        anastOuter nodes chanceOf fusionDist r n is (pr.1 :: pr.2 :: fused)
          (pairs ++ [pr]) k'

/-- The committed fusion pairs of a full anastomosis pass, scanning all node
indices from an empty fused set. -/
def anastPairs (nodes : List Node) (chanceOf : Node → Node → ℝ) (fusionDist : ℝ)
    (r : ℕ → ℝ) (k : ℕ) : List (ℕ × ℕ) × ℕ :=
  anastOuter nodes chanceOf fusionDist r nodes.length (List.range nodes.length) [] [] k

/-- The connecting branch segment created for a committed fusion pair:
both radii are the min of the two node radii, depth is the max. -/
def fusedBranchOf (nodes : List Node) (pr : ℕ × ℕ) : Branch :=
  let ni := nodes.getD pr.1 nodeDefault
  let nj := nodes.getD pr.2 nodeDefault
  ⟨ni.pos, nj.pos, min ni.radius nj.radius, min ni.radius nj.radius,
    max ni.depth nj.depth⟩

-- ── Classic tree generation (Type 1) ──

structure ClassicParams where
  generations : ℕ
  branchAngle : ℝ
  branchLength : ℝ
  trunkThickness : ℝ
  taper : ℝ
  anastomosis : ℝ

mutual

/-- Recursive step of the classic generator. fuel = generations - depth; the
branch is recorded first, recursion stops when depth reaches generations. -/
def classicRecurse (p : ClassicParams) (r : ℕ → ℝ) (angleRad : ℝ) :
    (fuel : ℕ) → Vec3 → Vec3 → ℝ → ℝ → ℝ → ℕ → ℕ → List Branch × ℕ
  | fuel, origin, direction, length, parentRadius, radius, depth, k =>
    let endP := vadd origin (vsmul direction length)
    let b : Branch := ⟨origin, endP, parentRadius, radius, depth⟩
    match fuel with
    | 0 => ([b], k)
    | Nat.succ fuel' =>
      if r k < 0.5 then
        let s1 := classicChild p r angleRad fuel' endP direction length radius depth (k + 1)
        let s2 := classicChild p r angleRad fuel' endP direction length radius depth s1.2
        (b :: (s1.1 ++ s2.1), s2.2)
      else
        let s1 := classicChild p r angleRad fuel' endP direction length radius depth (k + 1)
        let s2 := classicChild p r angleRad fuel' endP direction length radius depth s1.2
        let s3 := classicChild p r angleRad fuel' endP direction length radius depth s2.2
        (b :: (s1.1 ++ s2.1 ++ s3.1), s3.2)
termination_by fuel _ _ _ _ _ _ _ => 2 * fuel

/-- One child of a classic branching: azimuth, angle jitter and length draws
in source order, then recursion into the child. -/
def classicChild (p : ClassicParams) (r : ℕ → ℝ) (angleRad : ℝ)
    (fuel : ℕ) (endP direction : Vec3) (length radius : ℝ) (depth k : ℕ) :
    List Branch × ℕ :=
  let perp := randomPerpendicular direction
  let azimuth := r k * (2 * Real.pi)
  let rotatedPerp := rotateAround perp direction azimuth
  let childDir := vnormalize
    (rotateAround direction rotatedPerp (angleRad * (0.8 + r (k + 1) * 0.4)))
  let childLength := length * p.branchLength * (0.5 + r (k + 2) * 1.0)
  let childRadius := radius * p.taper
  classicRecurse p r angleRad fuel endP childDir childLength radius childRadius
    (depth + 1) (k + 3)
termination_by 2 * fuel + 1

end

/-- Primary-branch fan loop of the classic generator (5 draws per primary,
then recursion at depth 1 with fuel generations - 1). -/
def classicPrimaries (p : ClassicParams) (r : ℕ → ℝ) (angleRad primaryLen : ℝ)
    (stumpTop : Vec3) (jitterRadius : ℝ) (total : ℕ) :
    (rem : ℕ) → ℕ → ℕ → List Branch × ℕ
  | 0, _, k => ([], k)
  | Nat.succ rem, i, k =>
    let azimuth := ((i : ℝ) / (total : ℝ)) * (2 * Real.pi) + (r k - 0.5) * 0.6
    let fanAngle := angleRad * (1.2 + r (k + 1) * 1.0)
    let dir := vnormalize ⟨Real.sin fanAngle * Real.cos azimuth, Real.cos fanAngle,
      Real.sin fanAngle * Real.sin azimuth⟩
    let startPos := vadd stumpTop ⟨Real.cos azimuth * jitterRadius,
      (r (k + 2) - 0.5) * jitterRadius * 0.5, Real.sin azimuth * jitterRadius⟩
    let len := primaryLen * (0.7 + r (k + 3) * 0.6)
    let primaryRadius := p.trunkThickness * (0.6 + r (k + 4) * 0.3)
    let s1 := classicRecurse p r angleRad (p.generations - 1) startPos dir len
      p.trunkThickness primaryRadius 1 (k + 5)
    let s2 := classicPrimaries p r angleRad primaryLen stumpTop jitterRadius total
      rem (i + 1) s1.2
    (s1.1 ++ s2.1, s2.2)

/-- Fusion chance used by the classic generator's anastomosis scan:
normalized by the configured generations parameter. -/
def classicChanceOf (p : ClassicParams) : Node → Node → ℝ := fun ni nj =>
  classicChance p.anastomosis (((ni.depth : ℝ) + (nj.depth : ℝ)) / 2)
    (p.generations : ℝ)

/-- Classic generator over an abstract draw stream. -/
def generateTreeClassicWith (p : ClassicParams) (r : ℕ → ℝ) : List Branch :=
  let angleRad := p.branchAngle * Real.pi / 180
  let primaryLen := p.branchLength * 8
  let stumpHeight := primaryLen * 0.15
  let stumpTop : Vec3 := ⟨0, stumpHeight, 0⟩
  let stump : Branch := ⟨⟨0, 0, 0⟩, stumpTop, p.trunkThickness, p.trunkThickness, 0⟩
  let primaryCount := 5 + (⌊r 0 * 3⌋).toNat
  let jitterRadius := stumpHeight * 0.3
  let s := classicPrimaries p r angleRad primaryLen stumpTop jitterRadius
    primaryCount primaryCount 0 1
  let branches := stump :: s.1
  if 0 < p.anastomosis then
    let fusionDist := primaryLen * 0.4
    let nodes := branches.map (fun b => Node.mk b.start b.startRadius b.depth)
    let pr := anastPairs nodes (classicChanceOf p) fusionDist r s.2
    branches ++ pr.1.map (fusedBranchOf nodes)
  else branches

/-- Classic generator seeded with mulberry32. -/
def generateTreeClassic (p : ClassicParams) (seed : ℤ) : List Branch :=
  generateTreeClassicWith p (mulberryStream seed)

-- ── Kitaoka-inspired tree generation (Type 2) ──

structure KitaokaParams where
  density : ℝ
  diameterExponent : ℝ
  asymmetry : ℝ
  branchLength : ℝ
  trunkThickness : ℝ
  anastomosis : ℝ

mutual

/-- Recursive step of the flow-conserving generator. fuel = 20 - depth
(MAX_DEPTH = 20); the branch length is drawn and the branch recorded before
the flow/depth termination check. -/
def kitaokaRecurse (q : KitaokaParams) (r : ℕ → ℝ) :
    (fuel : ℕ) → Vec3 → Vec3 → ℝ → ℝ → ℕ → ℝ → Vec3 → ℕ → List Branch × ℕ
  | fuel, origin, direction, parentRadius, radius, depth, flow, planeNormal, k =>
    let length := radius * q.branchLength * (0.7 + r k * 0.6)
    let endP := vadd origin (vsmul direction length)
    let b : Branch := ⟨origin, endP, parentRadius, radius, depth⟩
    match fuel with
    | 0 => ([b], k + 1)
    | Nat.succ fuel' =>
      if flow < flowThreshold q.density then ([b], k + 1)
      else if r (k + 1) < 0.5 then
        let fractions := sortDesc (childFractions2 q.asymmetry (r (k + 2)))
        let newPN0 := vnormalize (vcross direction planeNormal)
        let newPN := if vdot newPN0 newPN0 < 0.001 then randomPerpendicular direction
          else newPN0
        let s := kitaokaChildren q r fuel' fractions 2 0 endP direction radius depth
          flow newPN (k + 3)
        (b :: s.1, s.2)
      else
        let fractions := sortDesc (childFractions3 (r (k + 2)) (r (k + 3)) (r (k + 4)))
        let newPN0 := vnormalize (vcross direction planeNormal)
        let newPN := if vdot newPN0 newPN0 < 0.001 then randomPerpendicular direction
          else newPN0
        let s := kitaokaChildren q r fuel' fractions 3 0 endP direction radius depth
          flow newPN (k + 5)
        (b :: s.1, s.2)
termination_by fuel _ _ _ _ _ _ _ _ => (fuel, 0, 0)

/-- Children loop of a flow-conserving branching: Murray radius, Kamiya angle,
deflection axis (plane normal and its negation for 2 children, azimuthal
spread with one draw per child for 3 children), then recursion. -/
def kitaokaChildren (q : KitaokaParams) (r : ℕ → ℝ) :
    (fuel : ℕ) → List ℝ → ℕ → ℕ → Vec3 → Vec3 → ℝ → ℕ → ℝ → Vec3 → ℕ →
      List Branch × ℕ
  | _fuel, [], _total, _cIdx, _endP, _direction, _radius, _depth, _flow, _pn, k =>
    ([], k)
  | fuel, f :: fs, total, cIdx, endP, direction, radius, depth, flow, pn, k =>
    let n := q.diameterExponent
    let childFlow := f * flow
    let childRadius := murrayRadius radius f n
    let angle := kamiyaAngle f n
    if total = 2 then
      let axis := if cIdx = 0 then pn else vneg pn
      let childDir := vnormalize (rotateAround direction axis angle)
      let s1 := kitaokaRecurse q r fuel endP childDir radius childRadius (depth + 1)
        childFlow pn k
      let s2 := kitaokaChildren q r fuel fs total (cIdx + 1) endP direction radius
        depth flow pn s1.2
      (s1.1 ++ s2.1, s2.2)
    else
      let azimuth := ((cIdx : ℝ) / (total : ℝ)) * (2 * Real.pi) + (r k - 0.5) * 0.4
      let axis := vnormalize (rotateAround pn direction azimuth)
      let childDir := vnormalize (rotateAround direction axis angle)
      let s1 := kitaokaRecurse q r fuel endP childDir radius childRadius (depth + 1)
        childFlow pn (k + 1)
      let s2 := kitaokaChildren q r fuel fs total (cIdx + 1) endP direction radius
        depth flow pn s1.2
      (s1.1 ++ s2.1, s2.2)
termination_by fuel fracs _ _ _ _ _ _ _ _ _ => (fuel, 1, fracs.length)

end

/-- Randomized primary flow weights of the flow-conserving generator. -/
def kitaokaFlows (r : ℕ → ℝ) : (count : ℕ) → ℕ → List ℝ × ℕ
  | 0, k => ([], k)
  | Nat.succ c, k =>
    let f := 0.7 + r k * 0.6
    let s := kitaokaFlows r c (k + 1)
    (f :: s.1, s.2)

/-- Primary-branch fan loop of the flow-conserving generator (3 draws per
primary, Murray's-law radius from the normalized flow fraction, recursion at
depth 1 with fuel 19). -/
def kitaokaPrimaries (q : KitaokaParams) (r : ℕ → ℝ) (primaryLen : ℝ)
    (stumpTop : Vec3) (jitterRadius : ℝ) (flows : List ℝ) (flowSum : ℝ)
    (total : ℕ) : (rem : ℕ) → ℕ → ℕ → List Branch × ℕ
  | 0, _, k => ([], k)
  | Nat.succ rem, i, k =>
    let azimuth := ((i : ℝ) / (total : ℝ)) * (2 * Real.pi) + (r k - 0.5) * 0.6
    let minFanAngle := Real.pi / 6
    let maxFanAngle := Real.pi / 3
    let fanAngle := minFanAngle + r (k + 1) * (maxFanAngle - minFanAngle)
    let dir := vnormalize ⟨Real.sin fanAngle * Real.cos azimuth, Real.cos fanAngle,
      Real.sin fanAngle * Real.sin azimuth⟩
    let startPos := vadd stumpTop ⟨Real.cos azimuth * jitterRadius,
      (r (k + 2) - 0.5) * jitterRadius * 0.5, Real.sin azimuth * jitterRadius⟩
    let fraction := flows.getD i 0 / flowSum
    let primaryRadius := murrayRadius q.trunkThickness fraction q.diameterExponent
    let planeNormal := randomPerpendicular dir
    let s1 := kitaokaRecurse q r 19 startPos dir q.trunkThickness primaryRadius 1
      fraction planeNormal (k + 3)
    let s2 := kitaokaPrimaries q r primaryLen stumpTop jitterRadius flows flowSum
      total rem (i + 1) s1.2
    (s1.1 ++ s2.1, s2.2)

/-- Fusion chance used by the flow-conserving generator's anastomosis scan:
normalized by the observed maximum depth of the generated tree. -/
def kitaokaChanceOf (q : KitaokaParams) (maxObs : ℕ) : Node → Node → ℝ := fun ni nj =>
  kitaokaChance q.anastomosis (((ni.depth : ℝ) + (nj.depth : ℝ)) / 2) (maxObs : ℝ)

/-- Flow-conserving generator over an abstract draw stream. -/
def generateTreeKitaokaWith (q : KitaokaParams) (r : ℕ → ℝ) : List Branch :=
  let primaryLen := q.trunkThickness * q.branchLength * 2.5
  let stumpHeight := primaryLen * 0.15
  let stumpTop : Vec3 := ⟨0, stumpHeight, 0⟩
  let stump : Branch := ⟨⟨0, 0, 0⟩, stumpTop, q.trunkThickness, q.trunkThickness, 0⟩
  let primaryCount := 5 + (⌊r 0 * 3⌋).toNat
  let jitterRadius := stumpHeight * 0.3
  let fl := kitaokaFlows r primaryCount 1
  let flowSum := fl.1.sum
  let s := kitaokaPrimaries q r primaryLen stumpTop jitterRadius fl.1 flowSum
    primaryCount primaryCount 0 fl.2
  let branches := stump :: s.1
  if 0 < q.anastomosis then
    let fusionDist := primaryLen * 0.4
    let nodes := branches.map (fun b => Node.mk b.start b.startRadius b.depth)
    let maxObs := maxObservedDepth branches
    let pr := anastPairs nodes (kitaokaChanceOf q maxObs) fusionDist r s.2
    branches ++ pr.1.map (fusedBranchOf nodes)
  else branches

/-- Flow-conserving generator seeded with mulberry32. -/
def generateTreeKitaoka (q : KitaokaParams) (seed : ℤ) : List Branch :=
  generateTreeKitaokaWith q (mulberryStream seed)

-- ── Analytical tapered-cone distance field (brain.ts fillDistanceField) ──

def voxelSizeOf (mcSize : ℝ) (res : ℕ) : ℝ := mcSize / (res : ℝ)

def halfSizeOf (mcSize : ℝ) : ℝ := mcSize / 2

/-- World-space coordinate of the voxel with index i along one axis. -/
def worldCoord (mcSize : ℝ) (res : ℕ) (i : ℤ) : ℝ :=
  (i : ℝ) * voxelSizeOf mcSize res - halfSizeOf mcSize

/-- Unclamped projection parameter of point p onto the branch axis;
0 when the segment has zero squared length. -/
def tRaw (b : Branch) (p : Vec3) : ℝ :=
  let ab := vsub b.«end» b.start
  let ap := vsub p b.start
  if 0 < vdot ab ab then vdot ap ab / vdot ab ab else 0

def clamp01 (t : ℝ) : ℝ := max 0 (min 1 t)

def tClamped (b : Branch) (p : Vec3) : ℝ := clamp01 (tRaw b p)

/-- Radius linearly interpolated along the branch at parameter t. -/
def radiusAt (b : Branch) (t : ℝ) : ℝ := b.startRadius + t * (b.endRadius - b.startRadius)

/-- Distance from p to the closest point on the branch segment. -/
def axisDist (b : Branch) (p : Vec3) : ℝ :=
  let t := tClamped b p
  vlen (vsub p (vadd b.start (vsmul (vsub b.«end» b.start) t)))

/-- Signed cone distance: negative inside the tapered cone. -/
def coneDist (b : Branch) (p : Vec3) : ℝ := axisDist b p - radiusAt b (tClamped b p)

/-- Local falloff margin: at least twice the interpolated radius and at least
two voxel widths. -/
def localMargin (b : Branch) (p : Vec3) (vs : ℝ) : ℝ :=
  max (radiusAt b (tClamped b p) * 2) (vs * 2)

/-- Quadratic falloff: 1 inside the surface, (1 - normalized)^2 outside. -/
def falloffOf (normalized : ℝ) : ℝ :=
  if normalized ≤ 0 then 1 else (1 - normalized) * (1 - normalized)

/-- Lower grid index of a padded interval (clamped at 0). -/
def boxLo (lo margin halfSize vs : ℝ) : ℤ := max 0 ⌊(lo - margin + halfSize) / vs⌋

/-- Upper grid index of a padded interval (clamped at resolution - 1). -/
def boxHi (hi margin halfSize vs : ℝ) (limit : ℤ) : ℤ := min limit ⌈(hi + margin + halfSize) / vs⌉

/-- Membership of a voxel index in the clamped grid box of the branch's
padded axis-aligned bounding box. -/
def inBox (b : Branch) (mcSize : ℝ) (res : ℕ) (ix iy iz : ℤ) : Prop :=
  let vs := voxelSizeOf mcSize res
  let hs := halfSizeOf mcSize
  let maxR := max b.startRadius b.endRadius
  let margin := max (maxR * 2) (vs * 2)
  let limit : ℤ := (res : ℤ) - 1
  boxLo (min b.start.x b.«end».x) margin hs vs ≤ ix ∧
    ix ≤ boxHi (max b.start.x b.«end».x) margin hs vs limit ∧
  boxLo (min b.start.y b.«end».y) margin hs vs ≤ iy ∧
    iy ≤ boxHi (max b.start.y b.«end».y) margin hs vs limit ∧
  boxLo (min b.start.z b.«end».z) margin hs vs ≤ iz ∧
    iz ≤ boxHi (max b.start.z b.«end».z) margin hs vs limit

/-- Field contribution of one branch at one voxel: influence times the
falloff when the voxel is inside the branch's grid box and within the local
margin of the cone surface, 0 otherwise. -/
def branchContrib (b : Branch) (mcSize : ℝ) (res : ℕ) (influence : ℝ)
    (ix iy iz : ℤ) : ℝ :=
  if inBox b mcSize res ix iy iz ∧
      coneDist b ⟨worldCoord mcSize res ix, worldCoord mcSize res iy,
        worldCoord mcSize res iz⟩ <
      localMargin b ⟨worldCoord mcSize res ix, worldCoord mcSize res iy,
        worldCoord mcSize res iz⟩ (voxelSizeOf mcSize res) then
    influence * falloffOf (coneDist b ⟨worldCoord mcSize res ix,
      worldCoord mcSize res iy, worldCoord mcSize res iz⟩ /
      localMargin b ⟨worldCoord mcSize res ix, worldCoord mcSize res iy,
        worldCoord mcSize res iz⟩ (voxelSizeOf mcSize res))
  else 0

/-- Per-voxel value of the distance field after fillDistanceField: the field
is zero-filled first and every branch write takes the max with the current
value, so the final value is the max of 0 and all branch contributions. -/
def fillDistanceField (branches : List Branch) (mcSize : ℝ) (res : ℕ)
    (influence : ℝ) (ix iy iz : ℤ) : ℝ :=
  branches.foldl (fun acc b => max acc (branchContrib b mcSize res influence ix iy iz)) 0

-- ── Junction fillet spheres (brain.ts fillJunctionSpheres) ──

/-- JavaScript Math.round: nearest integer, half away from zero rounds up. -/
def jsRound (x : ℝ) : ℤ := ⌊x + 1 / 2⌋

/-- Snap tolerance: half a voxel width. -/
def snapTol (mcSize : ℝ) (res : ℕ) : ℝ := voxelSizeOf mcSize res * 0.5

/-- Grid cell of an endpoint after snapping each coordinate to the snap grid. -/
def snapCell (snap : ℝ) (p : Vec3) : ℤ × ℤ × ℤ :=
  (jsRound (p.x / snap), jsRound (p.y / snap), jsRound (p.z / snap))

/-- All branch endpoints with their radii, in branch order (start then end). -/
def endpointsOf (branches : List Branch) : List (Vec3 × ℝ) :=
  branches.foldr
    (fun b acc => (b.start, b.startRadius) :: (b.«end», b.endRadius) :: acc) []

/-- The endpoints snapping into a given grid cell, in insertion order. -/
def cellEntries (branches : List Branch) (snap : ℝ) (key : ℤ × ℤ × ℤ) :
    List (Vec3 × ℝ) :=
  (endpointsOf branches).filter (fun e => decide (snapCell snap e.1 = key))

/-- Number of endpoints accumulated in a grid cell. -/
def cellCount (branches : List Branch) (snap : ℝ) (key : ℤ × ℤ × ℤ) : ℕ :=
  (cellEntries branches snap key).length

/-- Largest adjoining branch radius of a grid cell. -/
def cellMaxR (branches : List Branch) (snap : ℝ) (key : ℤ × ℤ × ℤ) : ℝ :=
  match cellEntries branches snap key with
  | [] => 0
  | e :: es => es.foldl (fun m x => max m x.2) e.2

/-- Representative position of a grid cell: the raw (unsnapped) position of
the first endpoint inserted into it. -/
def cellRep (branches : List Branch) (snap : ℝ) (key : ℤ × ℤ × ℤ) : Vec3 :=
  match cellEntries branches snap key with
  | [] => ⟨0, 0, 0⟩
  | e :: _ => e.1

/-- Grid cells that are junctions: cells accumulating two or more endpoints,
each listed once, in first-insertion order. -/
def junctionKeys (branches : List Branch) (snap : ℝ) : List (ℤ × ℤ × ℤ) :=
  (((endpointsOf branches).map (fun e => snapCell snap e.1)).dedup).filter
    (fun key => decide (2 ≤ cellCount branches snap key))

/-- Junction sphere radius: the cell's largest adjoining branch radius scaled
by one plus the blobiness factor. -/
def junctionSphereRadius (maxR blobiness : ℝ) : ℝ := maxR * (1 + blobiness)

/-- Membership of a voxel index in the clamped grid box of a junction
sphere's padded bounding box. -/
def inSphereBox (c : Vec3) (margin : ℝ) (mcSize : ℝ) (res : ℕ)
    (ix iy iz : ℤ) : Prop :=
  let vs := voxelSizeOf mcSize res
  let hs := halfSizeOf mcSize
  let limit : ℤ := (res : ℤ) - 1
  boxLo c.x margin hs vs ≤ ix ∧ ix ≤ boxHi c.x margin hs vs limit ∧
  boxLo c.y margin hs vs ≤ iy ∧ iy ≤ boxHi c.y margin hs vs limit ∧
  boxLo c.z margin hs vs ≤ iz ∧ iz ≤ boxHi c.z margin hs vs limit

/-- Additive field contribution of one junction sphere at one voxel. -/
def sphereContrib (branches : List Branch) (snap : ℝ) (mcSize : ℝ) (res : ℕ)
    (influence blobiness : ℝ) (key : ℤ × ℤ × ℤ) (ix iy iz : ℤ) : ℝ :=
  let c := cellRep branches snap key
  let sphereR := junctionSphereRadius (cellMaxR branches snap key) blobiness
  let margin := max (sphereR * 2) (voxelSizeOf mcSize res * 2)
  let p : Vec3 := ⟨worldCoord mcSize res ix, worldCoord mcSize res iy,
    worldCoord mcSize res iz⟩
  let sphereDist := vdist p c - sphereR
  if inSphereBox c margin mcSize res ix iy iz ∧ sphereDist < margin then
    influence * blobiness * falloffOf (sphereDist / margin)
  else 0

/-- Field transformer of fillJunctionSpheres: the identity when
blobiness <= 0, otherwise the old field plus the sum of the junction sphere
contributions at each voxel. -/
def fillJunctionSpheres (branches : List Branch) (field : ℤ → ℤ → ℤ → ℝ)
    (mcSize : ℝ) (res : ℕ) (influence blobiness : ℝ) : ℤ → ℤ → ℤ → ℝ :=
  if blobiness ≤ 0 then field
  else fun ix iy iz => field ix iy iz +
    ((junctionKeys branches (snapTol mcSize res)).map
      (fun key => sphereContrib branches (snapTol mcSize res) mcSize res influence
        blobiness key ix iy iz)).sum

-- ── Laplacian smoothing (mesh postprocessor, src/unnamed/part_004) ──

/-- One-ring neighbor list of vertex v built from the triangle index buffer:
each triangle (a, b, c) contributes b, c to a's list, a, c to b's and
a, b to c's (duplicates kept, as in the source). -/
def neighborsOf (tris : List (ℕ × ℕ × ℕ)) (v : ℕ) : List ℕ :=
  tris.foldr (fun t acc =>
    ((if t.1 = v then [t.2.1, t.2.2] else []) ++
     (if t.2.1 = v then [t.1, t.2.2] else []) ++
     (if t.2.2 = v then [t.1, t.2.1] else [])) ++ acc) []

/-- Componentwise sum of a list of vectors. -/
def vsum (l : List Vec3) : Vec3 := l.foldl vadd ⟨0, 0, 0⟩

/-- Average of the ring neighbors' positions of vertex i. -/
def neighborAvg (nbrs : ℕ → List ℕ) (pos : ℕ → Vec3) (i : ℕ) : Vec3 :=
  let ns := nbrs i
  let s := vsum (ns.map pos)
  ⟨s.x / (ns.length : ℝ), s.y / (ns.length : ℝ), s.z / (ns.length : ℝ)⟩

/-- One Laplacian smoothing iteration: vertices with no neighbors stay fixed,
every other vertex moves to 0.5 old + 0.5 neighbor average (all averages
computed from the old positions, as the source writes into a temp buffer). -/
def smoothStep (nbrs : ℕ → List ℕ) (pos : ℕ → Vec3) : ℕ → Vec3 := fun i =>
  if (nbrs i).length = 0 then pos i
  else
    let avg := neighborAvg nbrs pos i
    ⟨(pos i).x * 0.5 + avg.x * 0.5, (pos i).y * 0.5 + avg.y * 0.5,
      (pos i).z * 0.5 + avg.z * 0.5⟩

/-- The configured number of smoothing iterations applied in sequence. -/
def smoothIterate (nbrs : ℕ → List ℕ) (iters : ℕ) (pos : ℕ → Vec3) : ℕ → Vec3 :=
  (smoothStep nbrs)^[iters] pos

-- ── Concrete instances used to instantiate hypotheses at concrete inputs ──

/-- Default parameters of the classic generator (brain.ts destructuring). -/
def cp0 : ClassicParams := ⟨4, 35, 0.65, 1, 0.6, 0.3⟩

/-- Default parameters of the flow-conserving generator. -/
def kp0 : KitaokaParams := ⟨4, 2.8, 0.15, 3.0, 1, 0.3⟩

/-- A small branch list whose observed maximum depth is 2. -/
def cexBranches : List Branch :=
  [⟨⟨0, 0, 0⟩, ⟨0, 1, 0⟩, 1, 1, 0⟩,
   ⟨⟨0, 1, 0⟩, ⟨0, 2, 0⟩, 1, 0.6, 1⟩,
   ⟨⟨0, 2, 0⟩, ⟨0, 3, 0⟩, 0.6, 0.36, 2⟩]

/-- A single depth-0 branch. -/
def b6 : Branch := ⟨⟨0, 0, 0⟩, ⟨0, 1, 0⟩, 1, 1, 0⟩

/-- A neighbor table giving vertex 0 the single ring neighbor 1. -/
def nb1 : ℕ → List ℕ := fun _ => [1]

/-- A vertex position table placing every vertex at the origin. -/
def ps1 : ℕ → Vec3 := fun _ => ⟨0, 0, 0⟩

/-- A zero-length branch sitting on the single voxel of a 1-voxel grid. -/
def bW : Branch := ⟨⟨-1, -1, -1⟩, ⟨-1, -1, -1⟩, 1, 1, 0⟩

/-- The world position of voxel (0, 0, 0) for mcSize = 2, resolution 1. -/
def pW : Vec3 := ⟨-1, -1, -1⟩

/-- Two nodes at distance 1. -/
def nds7 : List Node := [⟨⟨0, 0, 0⟩, 1, 0⟩, ⟨⟨1, 0, 0⟩, 1, 0⟩]

/-- The everywhere-zero scalar field. -/
def f8 : ℤ → ℤ → ℤ → ℝ := fun _ _ _ => 0

/-- Disjointness of two fusion pairs: no shared endpoint index. -/
def disjPair (p q : ℕ × ℕ) : Prop :=
  p.1 ≠ q.1 ∧ p.1 ≠ q.2 ∧ p.2 ≠ q.1 ∧ p.2 ≠ q.2

end

-- ═══════════════════════════ Theorems ═══════════════════════════

-- ── Helper lemmas (shared) ──

theorem insertDesc_sum (x : ℝ) (l : List ℝ) : (insertDesc x l).sum = x + l.sum := by
  induction l with
  | nil => simp [insertDesc]
  | cons y ys ih =>
    by_cases h : y ≤ x
    · simp [insertDesc, h]
    · simp [insertDesc, h, ih]; ring

theorem sortDesc_sum (l : List ℝ) : (sortDesc l).sum = l.sum := by
  induction l with
  | nil => rfl
  | cons x xs ih => simp [sortDesc, insertDesc_sum, ih]

theorem half_step_abs (p a : ℝ) : |p * 0.5 + a * 0.5 - a| ≤ |p - a| := by
  have h : p * 0.5 + a * 0.5 - a = 0.5 * (p - a) := by ring
  rw [h, abs_mul, abs_of_pos (by norm_num : (0 : ℝ) < 0.5)]
  nlinarith [abs_nonneg (p - a)]

theorem foldl_max_depth (bs : List Branch) (init : ℕ) :
    init ≤ bs.foldl (fun m b => max m b.depth) init ∧
    ∀ b ∈ bs, b.depth ≤ bs.foldl (fun m b => max m b.depth) init := by
  induction bs generalizing init with
  | nil => exact ⟨le_refl _, fun b hb => absurd hb (List.not_mem_nil b)⟩
  | cons c cs ih =>
    have h1 := (ih (max init c.depth)).1
    have h2 := (ih (max init c.depth)).2
    refine ⟨le_trans (le_max_left _ _) h1, fun b hb => ?_⟩
    rcases List.mem_cons.mp hb with rfl | hb'
    · exact le_trans (le_max_right init b.depth) h1
    · exact h2 b hb'

-- ── C1: determinism of both generators ──

/-- C1: both generators are pure functions of (params, seed): every
stochastic decision is drawn from the mulberry32 stream of the seed (the
seeded generators are the abstract-stream generators applied to that
stream), two runs coincide, the output depends on nothing but the
parameters and the pointwise values of the draw stream, and every stream
value lies in [0, 1). -/
theorem generators_deterministic (p : ClassicParams) (q : KitaokaParams) (seed : ℤ)
    (r₁ r₂ : ℕ → ℝ) (h : ∀ k, r₁ k = r₂ k) :
    generateTreeClassic p seed = generateTreeClassicWith p (mulberryStream seed) ∧
    generateTreeKitaoka q seed = generateTreeKitaokaWith q (mulberryStream seed) ∧
    generateTreeClassic p seed = generateTreeClassic p seed ∧
    generateTreeKitaoka q seed = generateTreeKitaoka q seed ∧
    generateTreeClassicWith p r₁ = generateTreeClassicWith p r₂ ∧
    generateTreeKitaokaWith q r₁ = generateTreeKitaokaWith q r₂ ∧
    ∀ k, 0 ≤ mulberryStream seed k ∧ mulberryStream seed k < 1 := by
  have hr : r₁ = r₂ := funext h
  subst hr
  refine ⟨rfl, rfl, rfl, rfl, rfl, rfl, fun k => ⟨?_, ?_⟩⟩
  · exact div_nonneg (Nat.cast_nonneg _) (by norm_num)
  · simp only [mulberryStream]
    rw [div_lt_one (by norm_num)]
    have hlt : mulberryOut (mulberryNext^[k + 1] (toUint32 seed)) < 4294967296 := by
      simp only [mulberryOut]
      exact Nat.mod_lt _ (by norm_num)
    exact_mod_cast hlt

theorem generators_deterministic_witness :
    generateTreeClassicWith cp0 (fun _ => 0) = generateTreeClassicWith cp0 (fun _ => 0) :=
  (generators_deterministic cp0 kp0 42 (fun _ => 0) (fun _ => 0) (fun _ => rfl)).2.2.2.2.1

-- ── C2: flow conservation at every branching event ──

/-- C2: for draws in [0, 1) and asymmetry in [0, 0.5], the child flow
fractions generated at a branching event (2-child and 3-child case) are
non-negative and sum to exactly 1 (also after the descending sort the
generator applies), each child's flow is fraction times the parent flow, the
children's flows sum to the parent's flow, and no child's flow exceeds the
parent's. -/
theorem flow_conservation (asymmetry u u1 u2 u3 flow : ℝ)
    (ha0 : 0 ≤ asymmetry) (ha1 : asymmetry ≤ 0.5)
    (hu0 : 0 ≤ u) (hu1 : u < 1)
    (h10 : 0 ≤ u1) (h11 : u1 < 1) (h20 : 0 ≤ u2) (h21 : u2 < 1)
    (h30 : 0 ≤ u3) (h31 : u3 < 1) (hflow : 0 ≤ flow) :
    (∀ f ∈ childFractions2 asymmetry u, 0 ≤ f) ∧
    (childFractions2 asymmetry u).sum = 1 ∧
    (∀ f ∈ childFractions3 u1 u2 u3, 0 ≤ f) ∧
    (childFractions3 u1 u2 u3).sum = 1 ∧
    (sortDesc (childFractions2 asymmetry u)).sum = 1 ∧
    (sortDesc (childFractions3 u1 u2 u3)).sum = 1 ∧
    ((childFractions2 asymmetry u).map (fun f => f * flow)).sum = flow ∧
    ((childFractions3 u1 u2 u3).map (fun f => f * flow)).sum = flow ∧
    (∀ f ∈ childFractions2 asymmetry u, f * flow ≤ flow) ∧
    (∀ f ∈ childFractions3 u1 u2 u3, f * flow ≤ flow) := by
  have hr0 : 0 ≤ (0.5 - asymmetry) + u * asymmetry := by nlinarith
  have hr5 : (0.5 - asymmetry) + u * asymmetry ≤ 0.5 := by nlinarith
  have hs0 : (0 : ℝ) < 1 + u1 + u2 + u3 := by linarith
  have hsne : (1 + u1 + u2 + u3 : ℝ) ≠ 0 := ne_of_gt hs0
  have hsum2 : (childFractions2 asymmetry u).sum = 1 := by
    simp [childFractions2]
    try ring
  have hsum3 : (childFractions3 u1 u2 u3).sum = 1 := by
    simp only [childFractions3, List.sum_cons, List.sum_nil, add_zero]
    field_simp
    ring
  refine ⟨?_, hsum2, ?_, hsum3, ?_, ?_, ?_, ?_, ?_, ?_⟩
  · intro f hf
    simp only [childFractions2, List.mem_cons, List.not_mem_nil, or_false] at hf
    rcases hf with rfl | rfl
    · exact hr0
    · linarith
  · intro f hf
    simp only [childFractions3, List.mem_cons, List.not_mem_nil, or_false] at hf
    rcases hf with rfl | rfl | rfl
    · exact div_nonneg (by linarith) (le_of_lt hs0)
    · exact div_nonneg h20 (le_of_lt hs0)
    · exact div_nonneg h30 (le_of_lt hs0)
  · rw [sortDesc_sum, hsum2]
  · rw [sortDesc_sum, hsum3]
  · simp [childFractions2]
    try ring
  · simp only [childFractions3, List.map_cons, List.map_nil, List.sum_cons,
      List.sum_nil, add_zero]
    field_simp
    ring
  · intro f hf
    simp only [childFractions2, List.mem_cons, List.not_mem_nil, or_false] at hf
    have hf1 : f ≤ 1 := by rcases hf with rfl | rfl <;> linarith
    exact mul_le_of_le_one_left hflow hf1
  · intro f hf
    simp only [childFractions3, List.mem_cons, List.not_mem_nil, or_false] at hf
    have hf1 : f ≤ 1 := by
      rcases hf with rfl | rfl | rfl <;> rw [div_le_one hs0] <;> linarith
    calc f * flow ≤ 1 * flow := mul_le_mul_of_nonneg_right hf1 hflow
    _ = flow := one_mul flow

theorem flow_conservation_witness :
    (childFractions2 0 0).sum = 1 :=
  (flow_conservation 0 0 0 0 0 1 (le_refl 0) (by norm_num) (le_refl 0)
    (by norm_num) (le_refl 0) (by norm_num) (le_refl 0) (by norm_num)
    (le_refl 0) (by norm_num) (by norm_num)).2.1

-- ── C3: Murray's law radii ──

/-- C3: the child radius at a branching event equals the parent radius
times f^(1/n) (so their ratio is exactly f^(1/n)), a primary branch radius
equals trunkThickness times its normalized flow fraction raised to 1/n, and
Murray sizing strictly tapers for f in (0, 1). -/
theorem murrays_law (radius f n trunk fraction : ℝ)
    (hr : 0 < radius) (hf0 : 0 < f) (hf1 : f < 1) (hn : 0 < n) :
    murrayRadius radius f n / radius = f ^ (1 / n) ∧
    murrayRadius trunk fraction n = trunk * fraction ^ (1 / n) ∧
    murrayRadius radius f n < radius := by
  refine ⟨?_, rfl, ?_⟩
  · unfold murrayRadius
    rw [mul_comm, mul_div_assoc, div_self (ne_of_gt hr), mul_one]
  · unfold murrayRadius
    have h1 : f ^ ((1 : ℝ) / n) < 1 :=
      Real.rpow_lt_one (le_of_lt hf0) hf1 (by positivity)
    calc radius * f ^ ((1 : ℝ) / n) < radius * 1 :=
          mul_lt_mul_of_pos_left h1 hr
    _ = radius := mul_one radius

theorem murrays_law_witness :
    murrayRadius 1 0.5 2 / 1 = (0.5 : ℝ) ^ ((1 : ℝ) / 2) :=
  (murrays_law 1 0.5 2 1 0.5 zero_lt_one (by norm_num) (by norm_num)
    (by norm_num)).1

-- ── C4: Kamiya angle formula, clamping, and symmetry at f = 0.5 ──

/-- C4: kamiyaAngle computes the cosine by the Kamiya formula and clamps it
to [-1, 1] before applying arccos (so arccos is never applied outside its
domain), and at a binary split with both fractions 0.5 the two children
receive equal angles from the parent axis. -/
theorem kamiya_angle_clamped (f n u : ℝ) :
    kamiyaCos f n = (1 + f ^ ((4 : ℝ) / n) - (1 - f) ^ ((4 : ℝ) / n)) /
      (2 * f ^ ((2 : ℝ) / n)) ∧
    kamiyaAngle f n = Real.arccos (max (-1) (min 1 (kamiyaCos f n))) ∧
    -1 ≤ max (-1) (min 1 (kamiyaCos f n)) ∧
    max (-1) (min 1 (kamiyaCos f n)) ≤ 1 ∧
    childFractions2 0 u = [0.5, 0.5] ∧
    (childFractions2 0 u).map (fun g => kamiyaAngle g n) =
      [kamiyaAngle 0.5 n, kamiyaAngle 0.5 n] := by
  have h5 : childFractions2 0 u = [0.5, 0.5] := by
    simp only [childFractions2]
    norm_num
  refine ⟨rfl, rfl, le_max_left _ _, max_le (by norm_num) (min_le_left _ _), h5, ?_⟩
  rw [h5]
  rfl

-- ── C6: anastomosis depth normalization (corrected) ──

/-- C6 counterexample: on a tree whose observed maximum depth is 2, the
fusion chance the classic generator computes with its configured
generations = 4 differs from the claimed formula normalized by the observed
maximum depth. -/
theorem anastomosis_normalization_cex :
    classicChance 0.3 1 4 ≠
      0.3 * (1 - 1 / (maxObservedDepth cexBranches : ℝ)) *
        (1 - 1 / (maxObservedDepth cexBranches : ℝ)) := by
  have h : maxObservedDepth cexBranches = 2 := rfl
  rw [h]
  norm_num [classicChance]

/-- C6 (amended): the anastomosis scan is structurally identical for both
generators and both use the fusion chance anastomosis * (1 - avg/norm)^2,
but the normalizer differs: the flow-conserving generator divides by the
observed maximum depth of the generated tree (a true upper bound of all
branch depths, at least 1), while the classic generator divides by the
configured generations parameter. -/
theorem anastomosis_normalization (a d g x : ℝ) (bs : List Branch) :
    classicChance a d g = a * (1 - d / g) ^ 2 ∧
    (∀ m : ℝ, kitaokaChance a d m = a * (1 - d / m) ^ 2) ∧
    classicChance a d x = kitaokaChance a d x ∧
    (∀ b ∈ bs, b.depth ≤ maxObservedDepth bs) ∧
    1 ≤ maxObservedDepth bs := by
  refine ⟨by unfold classicChance; ring, fun m => by unfold kitaokaChance; ring,
    rfl, (foldl_max_depth bs 1).2, (foldl_max_depth bs 1).1⟩

theorem anastomosis_normalization_witness :
    b6.depth ≤ maxObservedDepth [b6] :=
  (anastomosis_normalization 0 0 0 0 [b6]).2.2.2.1 b6 (List.mem_singleton.mpr rfl)

-- ── C9: Laplacian smoothing ──

/-- C9: zero smoothing iterations leaves the positions unchanged; a vertex
with no ring neighbors stays fixed; a vertex with at least one ring neighbor
is replaced by 0.5 old + 0.5 neighbor average, hence each coordinate of the
new position is at least as close to the neighbor average as the old one
(toward, never away). -/
theorem laplacian_smoothing (nbrs : ℕ → List ℕ) (pos : ℕ → Vec3) (i : ℕ) :
    smoothIterate nbrs 0 pos = pos ∧
    ((nbrs i).length = 0 → smoothStep nbrs pos i = pos i) ∧
    ((nbrs i).length ≠ 0 →
      smoothStep nbrs pos i =
        ⟨(pos i).x * 0.5 + (neighborAvg nbrs pos i).x * 0.5,
         (pos i).y * 0.5 + (neighborAvg nbrs pos i).y * 0.5,
         (pos i).z * 0.5 + (neighborAvg nbrs pos i).z * 0.5⟩ ∧
      |(smoothStep nbrs pos i).x - (neighborAvg nbrs pos i).x| ≤
        |(pos i).x - (neighborAvg nbrs pos i).x| ∧
      |(smoothStep nbrs pos i).y - (neighborAvg nbrs pos i).y| ≤
        |(pos i).y - (neighborAvg nbrs pos i).y| ∧
      |(smoothStep nbrs pos i).z - (neighborAvg nbrs pos i).z| ≤
        |(pos i).z - (neighborAvg nbrs pos i).z|) := by
  refine ⟨rfl, fun h => by simp [smoothStep, h], fun h => ?_⟩
  have hs : smoothStep nbrs pos i =
      ⟨(pos i).x * 0.5 + (neighborAvg nbrs pos i).x * 0.5,
       (pos i).y * 0.5 + (neighborAvg nbrs pos i).y * 0.5,
       (pos i).z * 0.5 + (neighborAvg nbrs pos i).z * 0.5⟩ := by
    simp [smoothStep, h]
  refine ⟨hs, ?_, ?_, ?_⟩ <;> rw [hs] <;> exact half_step_abs _ _

theorem laplacian_smoothing_witness :
    smoothStep (fun _ => []) ps1 0 = ps1 0 ∧
    |(smoothStep nb1 ps1 0).x - (neighborAvg nb1 ps1 0).x| ≤
      |(ps1 0).x - (neighborAvg nb1 ps1 0).x| :=
  ⟨(laplacian_smoothing (fun _ => []) ps1 0).2.1 rfl,
   ((laplacian_smoothing nb1 ps1 0).2.2 (by simp [nb1])).2.1⟩

-- ── Helper lemmas for the distance field ──

theorem voxelSize_pos (mcSize : ℝ) (res : ℕ) (hres : 1 ≤ res) (hmc : 0 < mcSize) :
    0 < voxelSizeOf mcSize res := by
  have : (0 : ℝ) < (res : ℝ) := by exact_mod_cast Nat.lt_of_lt_of_le Nat.zero_lt_one hres
  exact div_pos hmc this

theorem localMargin_pos (b : Branch) (p : Vec3) (vs : ℝ) (hvs : 0 < vs) :
    0 < localMargin b p vs :=
  lt_of_lt_of_le (by linarith) (le_max_right (radiusAt b (tClamped b p) * 2) (vs * 2))

theorem falloffOf_nonneg (x : ℝ) : 0 ≤ falloffOf x := by
  unfold falloffOf
  by_cases h : x ≤ 0
  · simp [h]
  · simp only [h, if_false]
    exact mul_self_nonneg _

theorem falloffOf_le_one (x : ℝ) (hx : x < 1) : falloffOf x ≤ 1 := by
  unfold falloffOf
  by_cases h : x ≤ 0
  · simp [h]
  · simp only [h, if_false]
    push_neg at h
    nlinarith

theorem branchContrib_nonneg (b : Branch) (mcSize : ℝ) (res : ℕ) (influence : ℝ)
    (ix iy iz : ℤ) (hinf : 0 ≤ influence) :
    0 ≤ branchContrib b mcSize res influence ix iy iz := by
  unfold branchContrib
  split_ifs with h
  · exact mul_nonneg hinf (falloffOf_nonneg _)
  · exact le_refl 0

theorem branchContrib_le (b : Branch) (mcSize : ℝ) (res : ℕ) (influence : ℝ)
    (ix iy iz : ℤ) (hres : 1 ≤ res) (hmc : 0 < mcSize) (hinf : 0 ≤ influence) :
    branchContrib b mcSize res influence ix iy iz ≤ influence := by
  unfold branchContrib
  split_ifs with h
  · have hm := localMargin_pos b ⟨worldCoord mcSize res ix, worldCoord mcSize res iy,
      worldCoord mcSize res iz⟩ (voxelSizeOf mcSize res)
      (voxelSize_pos mcSize res hres hmc)
    have hlt : coneDist b ⟨worldCoord mcSize res ix, worldCoord mcSize res iy,
        worldCoord mcSize res iz⟩ / localMargin b ⟨worldCoord mcSize res ix,
        worldCoord mcSize res iy, worldCoord mcSize res iz⟩
        (voxelSizeOf mcSize res) < 1 := (div_lt_one hm).mpr h.2
    calc influence * falloffOf _ ≤ influence * 1 :=
          mul_le_mul_of_nonneg_left (falloffOf_le_one _ hlt) hinf
    _ = influence := mul_one influence
  · exact hinf

theorem foldl_max_shift (g : Branch → ℝ) (l : List Branch) (a c : ℝ) :
    l.foldl (fun acc b => max acc (g b)) (max c a) =
      max a (l.foldl (fun acc b => max acc (g b)) c) := by
  induction l generalizing c with
  | nil => simp [max_comm]
  | cons d ds ih =>
    simp only [List.foldl_cons]
    rw [show max (max c a) (g d) = max (max c (g d)) a by
      rw [max_assoc, max_comm a (g d), ← max_assoc], ih]

theorem foldl_max_le (g : Branch → ℝ) (l : List Branch) (acc hi : ℝ)
    (hacc : acc ≤ hi) (hg : ∀ b ∈ l, g b ≤ hi) :
    l.foldl (fun a b => max a (g b)) acc ≤ hi := by
  induction l generalizing acc with
  | nil => exact hacc
  | cons d ds ih =>
    simp only [List.foldl_cons]
    exact ih _ (max_le hacc (hg d (List.mem_cons_self d ds)))
      (fun b hb => hg b (List.mem_cons_of_mem d hb))

theorem le_foldl_max (g : Branch → ℝ) (l : List Branch) (acc : ℝ) :
    acc ≤ l.foldl (fun a b => max a (g b)) acc := by
  induction l generalizing acc with
  | nil => exact le_refl acc
  | cons d ds ih =>
    simp only [List.foldl_cons]
    exact le_trans (le_max_left acc (g d)) (ih _)

-- ── C5: per-voxel distance-field formula ──

/-- C5: for every branch and voxel, the projection parameter is clamped to
[0, 1] and is 0 for a zero-length segment, the radius is linearly
interpolated at the parameter, the cone distance is the axis distance minus
that radius, the margin is max(2 local radius, 2 voxel widths), the written
value is influence times 1 when the cone distance is nonpositive and
influence times (1 - coneDist/margin)^2 in the falloff band, and branches
are combined by the per-voxel maximum. -/
theorem distance_field_formula (b : Branch) (bs : List Branch) (p : Vec3)
    (mcSize : ℝ) (res : ℕ) (influence t : ℝ) (ix iy iz : ℤ)
    (hres : 1 ≤ res) (hmc : 0 < mcSize) :
    (b.start = b.«end» → tRaw b p = 0) ∧
    (0 ≤ tClamped b p ∧ tClamped b p ≤ 1) ∧
    radiusAt b t = b.startRadius + t * (b.endRadius - b.startRadius) ∧
    coneDist b p = axisDist b p - radiusAt b (tClamped b p) ∧
    localMargin b p (voxelSizeOf mcSize res) =
      max (2 * radiusAt b (tClamped b p)) (2 * voxelSizeOf mcSize res) ∧
    (inBox b mcSize res ix iy iz →
      coneDist b ⟨worldCoord mcSize res ix, worldCoord mcSize res iy,
        worldCoord mcSize res iz⟩ ≤ 0 →
      branchContrib b mcSize res influence ix iy iz = influence * 1) ∧
    (inBox b mcSize res ix iy iz →
      0 < coneDist b ⟨worldCoord mcSize res ix, worldCoord mcSize res iy,
        worldCoord mcSize res iz⟩ →
      coneDist b ⟨worldCoord mcSize res ix, worldCoord mcSize res iy,
        worldCoord mcSize res iz⟩ <
        localMargin b ⟨worldCoord mcSize res ix, worldCoord mcSize res iy,
          worldCoord mcSize res iz⟩ (voxelSizeOf mcSize res) →
      branchContrib b mcSize res influence ix iy iz =
        influence * (1 - coneDist b ⟨worldCoord mcSize res ix,
          worldCoord mcSize res iy, worldCoord mcSize res iz⟩ /
          localMargin b ⟨worldCoord mcSize res ix, worldCoord mcSize res iy,
            worldCoord mcSize res iz⟩ (voxelSizeOf mcSize res)) ^ 2) ∧
    fillDistanceField (b :: bs) mcSize res influence ix iy iz =
      max (branchContrib b mcSize res influence ix iy iz)
        (fillDistanceField bs mcSize res influence ix iy iz) := by
  have hvs := voxelSize_pos mcSize res hres hmc
  have hm := localMargin_pos b ⟨worldCoord mcSize res ix, worldCoord mcSize res iy,
    worldCoord mcSize res iz⟩ (voxelSizeOf mcSize res) hvs
  refine ⟨?_, ⟨le_max_left _ _, max_le (by norm_num) (min_le_left _ _)⟩, rfl, rfl,
    ?_, ?_, ?_, ?_⟩
  · intro h
    simp [tRaw, h, vsub, vdot]
  · simp only [localMargin]
    rw [mul_comm (radiusAt b (tClamped b p)) 2, mul_comm (voxelSizeOf mcSize res) 2]
  · intro hin hcd
    unfold branchContrib
    rw [if_pos ⟨hin, lt_of_le_of_lt hcd hm⟩]
    have hnn : coneDist b ⟨worldCoord mcSize res ix, worldCoord mcSize res iy,
        worldCoord mcSize res iz⟩ / localMargin b ⟨worldCoord mcSize res ix,
        worldCoord mcSize res iy, worldCoord mcSize res iz⟩
        (voxelSizeOf mcSize res) ≤ 0 :=
      div_nonpos_iff.mpr (Or.inr ⟨hcd, hm.le⟩)
    rw [falloffOf, if_pos hnn]
  · intro hin hcd0 hcdm
    unfold branchContrib
    rw [if_pos ⟨hin, hcdm⟩]
    have hpos : 0 < coneDist b ⟨worldCoord mcSize res ix, worldCoord mcSize res iy,
        worldCoord mcSize res iz⟩ / localMargin b ⟨worldCoord mcSize res ix,
        worldCoord mcSize res iy, worldCoord mcSize res iz⟩
        (voxelSizeOf mcSize res) := div_pos hcd0 hm
    rw [falloffOf, if_neg (not_le.mpr hpos)]
    ring
  · simp only [fillDistanceField, List.foldl_cons]
    exact foldl_max_shift (fun c => branchContrib c mcSize res influence ix iy iz)
      bs (branchContrib b mcSize res influence ix iy iz) 0

-- ── C10: distance-field bounds and locality ──

/-- C10: with resolution at least 1, positive grid extent and non-negative
influence, every entry of the filled field lies in [0, influence]; a voxel
outside the padded bounding boxes of all branches is exactly 0; and any
voxel inside some branch's box has all three indices clamped inside
[0, resolution - 1]. -/
theorem distance_field_bounds (bs : List Branch) (mcSize : ℝ) (res : ℕ)
    (influence : ℝ) (ix iy iz : ℤ) (hres : 1 ≤ res) (hmc : 0 < mcSize)
    (hinf : 0 ≤ influence) :
    0 ≤ fillDistanceField bs mcSize res influence ix iy iz ∧
    fillDistanceField bs mcSize res influence ix iy iz ≤ influence ∧
    ((∀ b ∈ bs, ¬ inBox b mcSize res ix iy iz) →
      fillDistanceField bs mcSize res influence ix iy iz = 0) ∧
    ∀ b : Branch, inBox b mcSize res ix iy iz →
      0 ≤ ix ∧ ix ≤ (res : ℤ) - 1 ∧ 0 ≤ iy ∧ iy ≤ (res : ℤ) - 1 ∧
        0 ≤ iz ∧ iz ≤ (res : ℤ) - 1 := by
  refine ⟨le_foldl_max _ bs 0, foldl_max_le _ bs 0 influence hinf
    (fun b _ => branchContrib_le b mcSize res influence ix iy iz hres hmc hinf),
    ?_, ?_⟩
  · intro hout
    unfold fillDistanceField
    induction bs with
    | nil => rfl
    | cons c cs ih =>
      simp only [List.foldl_cons]
      have hc : branchContrib c mcSize res influence ix iy iz = 0 := by
        unfold branchContrib
        rw [if_neg]
        intro hcontra
        exact hout c (List.mem_cons_self c cs) hcontra.1
      rw [hc, max_self]
      exact ih (fun b hb => hout b (List.mem_cons_of_mem c hb))
  · intro b hin
    simp only [inBox, boxLo, boxHi] at hin
    obtain ⟨h1, h2, h3, h4, h5, h6⟩ := hin
    exact ⟨le_trans (le_max_left 0 _) h1, le_trans h2 (min_le_left _ _),
      le_trans (le_max_left 0 _) h3, le_trans h4 (min_le_left _ _),
      le_trans (le_max_left 0 _) h5, le_trans h6 (min_le_left _ _)⟩

theorem distance_field_formula_witness :
    tRaw bW pW = 0 ∧ branchContrib bW 2 1 5 0 0 0 = 5 * 1 := by
  have H := distance_field_formula bW [] pW 2 1 5 0 0 0 0 (le_refl 1)
    (by norm_num)
  refine ⟨H.1 rfl, H.2.2.2.2.2.1 ?_ ?_⟩
  · norm_num [inBox, boxLo, boxHi, voxelSizeOf, halfSizeOf, bW]
  · norm_num [coneDist, axisDist, radiusAt, tClamped, tRaw, clamp01, bW,
      worldCoord, voxelSizeOf, halfSizeOf, vsub, vadd, vsmul, vdot, vlen,
      Real.sqrt_zero]

theorem distance_field_bounds_witness :
    0 ≤ fillDistanceField [] 1 1 0 0 0 0 ∧ fillDistanceField [] 1 1 0 0 0 0 = 0 :=
  ⟨(distance_field_bounds [] 1 1 0 0 0 0 (le_refl 1) zero_lt_one (le_refl 0)).1,
   (distance_field_bounds [] 1 1 0 0 0 0 (le_refl 1) zero_lt_one (le_refl 0)).2.2.1
     (fun b hb => absurd hb (List.not_mem_nil b))⟩

-- ── Helper lemmas for the anastomosis scan ──

theorem mem_range'_le (s n j : ℕ) (h : j ∈ List.range' s n) : s ≤ j := by
  induction n generalizing s with
  | zero => simp [List.range'] at h
  | succ m ih =>
    rw [List.range'_succ] at h
    rcases List.mem_cons.mp h with rfl | h'
    · exact le_refl j
    · exact le_trans (Nat.le_succ s) (ih (s + 1) h')

theorem anastInner_some (nodes : List Node) (chanceOf : Node → Node → ℝ)
    (fusionDist : ℝ) (r : ℕ → ℝ) (i : ℕ) (fused : List ℕ) :
    ∀ (js : List ℕ) (k a c k' : ℕ),
      anastInner nodes chanceOf fusionDist r i fused js k = (some (a, c), k') →
      a = i ∧ c ∈ js ∧ c ∉ fused := by
  intro js
  induction js with
  | nil =>
    intro k a c k' h
    simp [anastInner] at h
  | cons j js ih =>
    intro k a c k' h
    simp only [anastInner] at h
    split_ifs at h with h1 h2 h3
    · obtain ⟨ha, hc, hf⟩ := ih _ _ _ _ h
      exact ⟨ha, List.mem_cons_of_mem j hc, hf⟩
    · obtain ⟨ha, hc, hf⟩ := ih _ _ _ _ h
      exact ⟨ha, List.mem_cons_of_mem j hc, hf⟩
    · simp only [Prod.mk.injEq, Option.some.injEq] at h
      obtain ⟨⟨ha, hc⟩, _⟩ := h
      refine ⟨ha.symm, ?_, ?_⟩
      · rw [← hc]
        exact List.mem_cons_self j js
      · rw [← hc]
        exact h1
    · obtain ⟨ha, hc, hf⟩ := ih _ _ _ _ h
      exact ⟨ha, List.mem_cons_of_mem j hc, hf⟩

theorem anastOuter_inv (nodes : List Node) (chanceOf : Node → Node → ℝ)
    (fusionDist : ℝ) (r : ℕ → ℝ) (n : ℕ) :
    ∀ (is fused : List ℕ) (pairs : List (ℕ × ℕ)) (k : ℕ),
      List.Pairwise disjPair pairs →
      (∀ p ∈ pairs, p.1 ≠ p.2) →
      (∀ p ∈ pairs, p.1 ∈ fused ∧ p.2 ∈ fused) →
      List.Pairwise disjPair
          (anastOuter nodes chanceOf fusionDist r n is fused pairs k).1 ∧
        ∀ p ∈ (anastOuter nodes chanceOf fusionDist r n is fused pairs k).1,
          p.1 ≠ p.2 := by
  intro is
  induction is with
  | nil =>
    intro fused pairs k h1 h2 _h3
    exact ⟨h1, h2⟩
  | cons i is ih =>
    intro fused pairs k h1 h2 h3
    simp only [anastOuter]
    split_ifs with hif
    · exact ih fused pairs k h1 h2 h3
    · rcases hres : anastInner nodes chanceOf fusionDist r i fused
        (List.range' (i + 1) (n - (i + 1))) k with ⟨o, k'⟩
      cases o with
      | none => exact ih fused pairs k' h1 h2 h3
      | some pr =>
        obtain ⟨ha, hcmem, hcf⟩ := anastInner_some nodes chanceOf fusionDist r i
          fused _ k pr.1 pr.2 k' hres
        have hne : pr.1 ≠ pr.2 := by
          have hlt := mem_range'_le (i + 1) (n - (i + 1)) pr.2 hcmem
          omega
        have h1' : List.Pairwise disjPair (pairs ++ [pr]) := by
          rw [List.pairwise_append]
          refine ⟨h1, by simp, ?_⟩
          intro p hp q hq
          rw [List.mem_singleton] at hq
          subst hq
          obtain ⟨hp1, hp2⟩ := h3 p hp
          refine ⟨?_, ?_, ?_, ?_⟩
          · exact fun he => hif (by rw [← ha, ← he]; exact hp1)
          · exact fun he => hcf (by rw [← he]; exact hp1)
          · exact fun he => hif (by rw [← ha, ← he]; exact hp2)
          · exact fun he => hcf (by rw [← he]; exact hp2)
        have h2' : ∀ p ∈ pairs ++ [pr], p.1 ≠ p.2 := by
          intro p hp
          rcases List.mem_append.mp hp with hp' | hp'
          · exact h2 p hp'
          · rw [List.mem_singleton] at hp'
            subst hp'
            exact hne
        have h3' : ∀ p ∈ pairs ++ [pr],
            p.1 ∈ pr.1 :: pr.2 :: fused ∧ p.2 ∈ pr.1 :: pr.2 :: fused := by
          intro p hp
          rcases List.mem_append.mp hp with hp' | hp'
          · obtain ⟨hp1, hp2⟩ := h3 p hp'
            exact ⟨List.mem_cons_of_mem _ (List.mem_cons_of_mem _ hp1),
              List.mem_cons_of_mem _ (List.mem_cons_of_mem _ hp2)⟩
          · rw [List.mem_singleton] at hp'
            subst hp'
            exact ⟨List.mem_cons_self _ _,
              List.mem_cons_of_mem _ (List.mem_cons_self _ _)⟩
        exact ih (pr.1 :: pr.2 :: fused) (pairs ++ [pr]) k' h1' h2' h3'

-- ── C7: anastomosis exclusivity ──

/-- C7: the committed fusion pairs of a full anastomosis scan are pairwise
disjoint and have distinct endpoints, so no node index is an endpoint of
more than one fused connecting segment; nodes already fused are skipped by
both the outer and the inner scan, and the inner scan greedily commits the
first in-band candidate whose draw beats the fusion chance. -/
theorem anastomosis_exclusivity (nodes : List Node) (chanceOf : Node → Node → ℝ)
    (fusionDist : ℝ) (r : ℕ → ℝ) (k k2 : ℕ) (i j n : ℕ) (is js fused : List ℕ)
    (pairs : List (ℕ × ℕ)) :
    (List.Pairwise disjPair (anastPairs nodes chanceOf fusionDist r k).1 ∧
      ∀ p ∈ (anastPairs nodes chanceOf fusionDist r k).1, p.1 ≠ p.2) ∧
    (i ∈ fused →
      anastOuter nodes chanceOf fusionDist r n (i :: is) fused pairs k2 =
        anastOuter nodes chanceOf fusionDist r n is fused pairs k2) ∧
    (j ∈ fused →
      anastInner nodes chanceOf fusionDist r i fused (j :: js) k2 =
        anastInner nodes chanceOf fusionDist r i fused js k2) ∧
    (j ∉ fused →
      ¬(vdist (nodes.getD i nodeDefault).pos (nodes.getD j nodeDefault).pos < 0.5 ∨
        fusionDist < vdist (nodes.getD i nodeDefault).pos
          (nodes.getD j nodeDefault).pos) →
      r k2 < chanceOf (nodes.getD i nodeDefault) (nodes.getD j nodeDefault) →
      anastInner nodes chanceOf fusionDist r i fused (j :: js) k2 =
        (some (i, j), k2 + 1)) := by
  refine ⟨?_, ?_, ?_, ?_⟩
  · exact anastOuter_inv nodes chanceOf fusionDist r nodes.length
      (List.range nodes.length) [] [] k (List.Pairwise.nil)
      (fun p hp => absurd hp (List.not_mem_nil p))
      (fun p hp => absurd hp (List.not_mem_nil p))
  · intro h
    simp only [anastOuter, if_pos h]
  · intro h
    simp only [anastInner, if_pos h]
  · intro hj hband hr
    simp only [anastInner, if_neg hj, if_neg hband, if_pos hr]

theorem anastomosis_exclusivity_witness :
    (anastOuter nds7 (fun _ _ => 1) 2 (fun _ => 0) 2 (0 :: []) [0] [] 0 =
      anastOuter nds7 (fun _ _ => 1) 2 (fun _ => 0) 2 [] [0] [] 0) ∧
    (anastInner nds7 (fun _ _ => 1) 2 (fun _ => 0) 0 [1] (1 :: []) 0 =
      anastInner nds7 (fun _ _ => 1) 2 (fun _ => 0) 0 [1] [] 0) ∧
    anastInner nds7 (fun _ _ => 1) 2 (fun _ => 0) 0 [] (1 :: []) 0 =
      (some (0, 1), 0 + 1) := by
  have hd : vdist (nds7.getD 0 nodeDefault).pos (nds7.getD 1 nodeDefault).pos = 1 := by
    simp only [nds7, List.getD_cons_zero, List.getD_cons_succ]
    simp [vdist, vlen, vsub, vdot]
    try norm_num [Real.sqrt_one]
  refine ⟨(anastomosis_exclusivity nds7 (fun _ _ => 1) 2 (fun _ => 0) 0 0 0 1 2
      [] [] [0] []).2.1 (List.mem_singleton.mpr rfl),
    (anastomosis_exclusivity nds7 (fun _ _ => 1) 2 (fun _ => 0) 0 0 0 1 2
      [] [] [1] []).2.2.1 (List.mem_singleton.mpr rfl),
    (anastomosis_exclusivity nds7 (fun _ _ => 1) 2 (fun _ => 0) 0 0 0 1 2
      [] [] [] []).2.2.2 (List.not_mem_nil 1) ?_ ?_⟩
  · rw [hd]
    norm_num
  · norm_num

-- ── C8: junction spheres (corrected) ──

/-- C8 counterexample: the junction sphere radius the code computes is
maxR * (1 + blobiness), not maxR scaled by the blobiness factor itself: at
maxR = 1, blobiness = 1 the code gives 2, the claimed law gives 1. -/
theorem junction_radius_cex : junctionSphereRadius 1 1 ≠ 1 * 1 := by
  norm_num [junctionSphereRadius]

/-- C8 (amended): fillJunctionSpheres snaps endpoints with half-a-voxel
tolerance, a cell is a junction exactly when it accumulates two or more
endpoints, the junction sphere radius is the largest adjoining branch radius
scaled by one plus the blobiness factor, the spherical falloff is added on
top of the field (additively), and the field is unchanged when
blobiness <= 0. -/
theorem junction_spheres (bs : List Branch) (field : ℤ → ℤ → ℤ → ℝ)
    (mcSize : ℝ) (res : ℕ) (influence blobiness maxR : ℝ) (key : ℤ × ℤ × ℤ)
    (ix iy iz : ℤ) :
    (blobiness ≤ 0 →
      fillJunctionSpheres bs field mcSize res influence blobiness = field) ∧
    (key ∈ junctionKeys bs (snapTol mcSize res) ↔
      2 ≤ cellCount bs (snapTol mcSize res) key) ∧
    junctionSphereRadius maxR blobiness = maxR * (1 + blobiness) ∧
    snapTol mcSize res = voxelSizeOf mcSize res * 0.5 ∧
    (0 < blobiness →
      fillJunctionSpheres bs field mcSize res influence blobiness ix iy iz =
        field ix iy iz +
          ((junctionKeys bs (snapTol mcSize res)).map
            (fun c => sphereContrib bs (snapTol mcSize res) mcSize res influence
              blobiness c ix iy iz)).sum) := by
  refine ⟨?_, ?_, rfl, rfl, ?_⟩
  · intro h
    simp [fillJunctionSpheres, h]
  · constructor
    · intro h
      exact of_decide_eq_true (List.mem_filter.mp h).2
    · intro h
      apply List.mem_filter.mpr
      refine ⟨?_, decide_eq_true h⟩
      have hpos : 0 < (cellEntries bs (snapTol mcSize res) key).length :=
        lt_of_lt_of_le (by norm_num) h
      obtain ⟨e, he⟩ := List.exists_mem_of_length_pos hpos
      have hef := List.mem_filter.mp he
      rw [List.mem_dedup]
      exact List.mem_map.mpr ⟨e, hef.1, of_decide_eq_true hef.2⟩
  · intro h
    simp [fillJunctionSpheres, not_le.mpr h]

theorem junction_spheres_witness :
    fillJunctionSpheres [] f8 1 1 1 0 = f8 ∧
    fillJunctionSpheres [] f8 1 1 1 1 0 0 0 =
      f8 0 0 0 + ((junctionKeys [] (snapTol 1 1)).map
        (fun c => sphereContrib [] (snapTol 1 1) 1 1 1 1 c 0 0 0)).sum :=
  ⟨(junction_spheres [] f8 1 1 1 0 1 (0, 0, 0) 0 0 0).1 (le_refl 0),
   (junction_spheres [] f8 1 1 1 1 1 (0, 0, 0) 0 0 0).2.2.2.2 zero_lt_one⟩




